import Mathlib

/-!
Verification development for the File-difference-checker comparison engine
(`src/core/excel_diff.py`, `src/core/pdf_diff.py`).

The Python source is shallowly embedded: strings are Lean `String`s
(operated on through their `List Char` data), spreadsheet cells are an
explicit `CellVal` type, grids are read-only functions, Python floats used
for scores are modelled as `ℚ`, and Python dictionaries are modelled as
insertion-ordered association lists with overwrite-on-reassignment.
Unicode-dependent Python builtins (`str.lower`, the `\w`/`\s` regex
classes, `str.strip`) are modelled on their ASCII fragment, which is the
fragment exercised by every value in this development.
-/

namespace ExcelDiff

/-- The ASCII whitespace class of Python's `\s` regex class and `str.strip`. -/
def pySpace (c : Char) : Bool :=
  c == ' ' || c == '\t' || c == '\n' || c == '\r' || c == '\x0b' || c == '\x0c'

/-- The ASCII fragment of Python's `\w` regex class: alphanumerics and underscore. -/
def isWordChar (c : Char) : Bool :=
  c.isAlphanum || c == '_'

/-- First substitution of `_normalize_header`:
`re.sub(r"[^\w\s]", " ", s)` — every character outside the word/whitespace
class becomes a single space. -/
def subPunct (c : Char) : Char :=
  if isWordChar c || pySpace c then c else ' '

/-- Second substitution of `_normalize_header`:
`re.sub(r"\s+", " ", s)` — each maximal run of whitespace becomes one space
(a whitespace character followed by another whitespace character is dropped;
the last character of a run is emitted as `' '`). -/
def collapseWS : List Char → List Char
  | [] => []
  | [c] => [if pySpace c then ' ' else c]
  | c :: d :: cs =>
    if pySpace c && pySpace d then collapseWS (d :: cs)
    else (if pySpace c then ' ' else c) :: collapseWS (d :: cs)

/-- Python `str.strip()`: drop whitespace from both ends. -/
def pyStrip (l : List Char) : List Char :=
  ((((l.dropWhile (fun d => pySpace d)).reverse).dropWhile (fun d => pySpace d)).reverse)

/-- `_normalize_header` on the character list of the input string:
replace non-word with space, collapse whitespace, strip, lowercase. -/
def normalizeHeaderChars (l : List Char) : List Char :=
  (pyStrip (collapseWS (l.map subPunct))).map Char.toLower

/-- `_normalize_header(s)` for a non-`None` argument. -/
def normalizeHeader (s : String) : String :=
  String.mk (normalizeHeaderChars s.data)

/-- `_normalize_header` including the `None` guard (`None ↦ ""`). -/
def normalizeHeaderOpt : Option String → String
  | none => ""
  | some s => normalizeHeader s

/-- The relation "not two whitespace characters in a row". -/
def noTwoWS (a b : Char) : Prop := ¬(pySpace a = true ∧ pySpace b = true)

lemma charOfNatUpper (n : Nat) (h1 : 65 ≤ n) (h2 : n ≤ 90) :
    (Char.ofNat (n + 32)).toLower = Char.ofNat (n + 32) ∧
    isWordChar (Char.ofNat (n + 32)) = true ∧
    pySpace (Char.ofNat (n + 32)) = false := by
  interval_cases n <;> exact ⟨by decide, by decide, by decide⟩

lemma toLower_eq_of_upper {c : Char} (h1 : 65 ≤ c.toNat) (h2 : c.toNat ≤ 90) :
    c.toLower = Char.ofNat (c.toNat + 32) := by
  show (if c.toNat ≥ 65 ∧ c.toNat ≤ 90 then Char.ofNat (c.toNat + 32) else c) =
    Char.ofNat (c.toNat + 32)
  rw [if_pos ⟨h1, h2⟩]

lemma toLower_eq_of_not_upper {c : Char} (h : ¬(65 ≤ c.toNat ∧ c.toNat ≤ 90)) :
    c.toLower = c := by
  show (if c.toNat ≥ 65 ∧ c.toNat ≤ 90 then Char.ofNat (c.toNat + 32) else c) = c
  rw [if_neg h]

lemma toLower_idem (c : Char) : c.toLower.toLower = c.toLower := by
  by_cases h : 65 ≤ c.toNat ∧ c.toNat ≤ 90
  · rw [toLower_eq_of_upper h.1 h.2]
    exact (charOfNatUpper c.toNat h.1 h.2).1
  · rw [toLower_eq_of_not_upper h, toLower_eq_of_not_upper h]

lemma isWordChar_toLower {c : Char} (h : isWordChar c = true) :
    isWordChar c.toLower = true := by
  by_cases hu : 65 ≤ c.toNat ∧ c.toNat ≤ 90
  · rw [toLower_eq_of_upper hu.1 hu.2]
    exact (charOfNatUpper c.toNat hu.1 hu.2).2.1
  · rw [toLower_eq_of_not_upper hu]; exact h

lemma pySpace_of_toLower {c : Char} (h : pySpace c.toLower = true) :
    pySpace c = true := by
  by_cases hu : 65 ≤ c.toNat ∧ c.toNat ≤ 90
  · rw [toLower_eq_of_upper hu.1 hu.2] at h
    rw [(charOfNatUpper c.toNat hu.1 hu.2).2.2] at h
    exact absurd h (by simp)
  · rwa [toLower_eq_of_not_upper hu] at h

lemma pySpace_cases {c : Char} (h : pySpace c = true) :
    c = ' ' ∨ c = '\t' ∨ c = '\n' ∨ c = '\r' ∨ c = '\x0b' ∨ c = '\x0c' := by
  simpa [pySpace, or_assoc] using h

lemma word_not_space {c : Char} (h : isWordChar c = true) : pySpace c = false := by
  cases hp : pySpace c with
  | false => rfl
  | true =>
    rcases pySpace_cases hp with rfl | rfl | rfl | rfl | rfl | rfl <;>
      exact absurd h (by decide)

lemma subPunct_prop (c : Char) :
    isWordChar (subPunct c) = true ∨ pySpace (subPunct c) = true := by
  unfold subPunct
  by_cases h : (isWordChar c || pySpace c) = true
  · rw [if_pos h]; simpa using h
  · rw [if_neg h]; right; decide

lemma collapseWS_mem : ∀ {l : List Char}, ∀ c ∈ collapseWS l,
    c = ' ' ∨ (c ∈ l ∧ pySpace c = false)
  | [], c, hc => by simp [collapseWS] at hc
  | [a], c, hc => by
    by_cases ha : pySpace a
    · simp [collapseWS, ha] at hc; left; exact hc
    · simp [collapseWS, ha] at hc
      subst hc
      right
      exact ⟨by simp, by simpa [Bool.not_eq_true] using ha⟩
  | a :: d :: cs, c, hc => by
    by_cases h2 : (pySpace a && pySpace d) = true
    · rw [show collapseWS (a :: d :: cs) = collapseWS (d :: cs) by
        simp [collapseWS, h2]] at hc
      rcases collapseWS_mem c hc with h | ⟨hm, hs⟩
      · left; exact h
      · right; exact ⟨List.mem_cons_of_mem _ hm, hs⟩
    · rw [show collapseWS (a :: d :: cs)
          = (if pySpace a then ' ' else a) :: collapseWS (d :: cs) by
        simp [collapseWS, h2]] at hc
      rcases List.mem_cons.1 hc with hh | ht
      · by_cases ha : pySpace a
        · simp [ha] at hh; left; exact hh
        · simp [ha] at hh
          right
          refine ⟨by simp [hh], by simp [Bool.not_eq_true] at ha; rwa [hh]⟩
      · rcases collapseWS_mem c ht with h | ⟨hm, hs⟩
        · left; exact h
        · right; exact ⟨List.mem_cons_of_mem _ hm, hs⟩

lemma collapseWS_head_cons {d : Char} (cs : List Char) (hd : pySpace d = false) :
    (collapseWS (d :: cs)).head? = some d := by
  cases cs <;> simp [collapseWS, hd]

lemma collapseWS_chain : ∀ (l : List Char), List.Chain' noTwoWS (collapseWS l)
  | [] => by simp [collapseWS]
  | [a] => by by_cases ha : pySpace a <;> simp [collapseWS, ha]
  | a :: d :: cs => by
    by_cases h2 : (pySpace a && pySpace d) = true
    · rw [show collapseWS (a :: d :: cs) = collapseWS (d :: cs) by
        simp [collapseWS, h2]]
      exact collapseWS_chain (d :: cs)
    · rw [show collapseWS (a :: d :: cs)
          = (if pySpace a then ' ' else a) :: collapseWS (d :: cs) by
        simp [collapseWS, h2]]
      rw [List.chain'_cons']
      refine ⟨?_, collapseWS_chain (d :: cs)⟩
      intro y hy
      by_cases ha : pySpace a
      · have hd : pySpace d = false := by
          cases hdd : pySpace d
          · rfl
          · exact absurd (by simp [ha, hdd]) h2
        rw [collapseWS_head_cons cs hd] at hy
        simp only [Option.mem_def, Option.some_inj] at hy
        subst hy
        exact fun hk => by simp [hd] at hk
      · simp only [if_neg ha]
        exact fun hk => ha (by simpa using hk.1)

lemma collapseWS_eq_self : ∀ {l : List Char},
    (∀ c ∈ l, isWordChar c = true ∨ c = ' ') →
    List.Chain' noTwoWS l → collapseWS l = l
  | [], _, _ => rfl
  | [a], hc, _ => by
    by_cases ha : pySpace a
    · have : a = ' ' := by
        rcases hc a (by simp) with h | h
        · exact absurd (word_not_space h) (by simp [ha])
        · exact h
      simp [collapseWS, ha, this]
    · simp [collapseWS, ha]
  | a :: d :: cs, hc, hch => by
    have hedge : noTwoWS a d := (List.chain'_cons.1 hch).1
    have h2 : (pySpace a && pySpace d) = false := by
      cases h1 : pySpace a
      · simp
      · cases hd : pySpace d
        · simp
        · exact absurd ⟨h1, hd⟩ hedge
    rw [show collapseWS (a :: d :: cs)
        = (if pySpace a then ' ' else a) :: collapseWS (d :: cs) by
      simp [collapseWS, h2]]
    have htail : collapseWS (d :: cs) = d :: cs :=
      collapseWS_eq_self (fun c hm => hc c (List.mem_cons_of_mem _ hm))
        (List.chain'_cons.1 hch).2
    rw [htail]
    by_cases ha : pySpace a
    · have : a = ' ' := by
        rcases hc a (by simp) with h | h
        · exact absurd (word_not_space h) (by simp [ha])
        · exact h
      simp [ha, this]
    · simp [ha]

lemma pyStrip_prefix_dropWhile (l : List Char) :
    pyStrip l <+: l.dropWhile (fun d => pySpace d) := by
  unfold pyStrip
  rw [← List.reverse_suffix, List.reverse_reverse]
  exact List.dropWhile_suffix _

lemma pyStrip_within (l : List Char) : pyStrip l <:+: l := by
  have h1 := List.IsPrefix.isInfix (pyStrip_prefix_dropWhile l)
  have h2 := List.IsSuffix.isInfix
    (List.dropWhile_suffix (l := l) (fun d => pySpace d))
  exact h1.trans h2

lemma head?_dropWhile_not (p : Char → Bool) (l : List Char) :
    ∀ h ∈ (l.dropWhile p).head?, p h = false := by
  induction l with
  | nil => simp
  | cons a t ih =>
    by_cases ha : p a
    · simpa [List.dropWhile_cons, ha] using ih
    · simp [List.dropWhile_cons, ha]

lemma suffix_getLast? {l₁ l₂ : List Char} (h : l₁ <:+ l₂) (hne : l₁ ≠ []) :
    l₂.getLast? = l₁.getLast? := by
  obtain ⟨t, rfl⟩ := h
  rw [List.getLast?_append]
  cases hl : l₁.getLast? with
  | none => exact absurd (List.getLast?_eq_none_iff.1 hl) hne
  | some a => rfl

lemma pyStrip_head (l : List Char) : ∀ h ∈ (pyStrip l).head?, pySpace h = false := by
  intro h hh
  unfold pyStrip at hh
  rw [List.head?_reverse] at hh
  have hne : ((l.dropWhile (fun d => pySpace d)).reverse.dropWhile (fun d => pySpace d)) ≠ [] := by
    intro hnil
    rw [hnil] at hh
    simp at hh
  have := suffix_getLast? (List.dropWhile_suffix
    (l := (l.dropWhile (fun d => pySpace d)).reverse) (fun d => pySpace d)) hne
  rw [← this] at hh
  rw [List.getLast?_reverse] at hh
  exact head?_dropWhile_not _ _ h hh

lemma pyStrip_last (l : List Char) : ∀ h ∈ (pyStrip l).getLast?, pySpace h = false := by
  intro h hh
  unfold pyStrip at hh
  rw [List.getLast?_reverse] at hh
  exact head?_dropWhile_not _ _ h hh

lemma dropWhile_eq_self_of_head (p : Char → Bool) (l : List Char)
    (hh : ∀ h ∈ l.head?, p h = false) : l.dropWhile p = l := by
  cases l with
  | nil => rfl
  | cons a t =>
    have : p a = false := hh a (by simp)
    simp [List.dropWhile_cons, this]

lemma pyStrip_eq_self {l : List Char}
    (hh : ∀ h ∈ l.head?, pySpace h = false)
    (hl : ∀ h ∈ l.getLast?, pySpace h = false) : pyStrip l = l := by
  unfold pyStrip
  rw [dropWhile_eq_self_of_head _ _ hh]
  rw [dropWhile_eq_self_of_head _ _ (by simpa using hl)]
  exact List.reverse_reverse l

/-- Normal form of `_normalize_header` output: lower-case word characters and
single spaces, no run of two whitespace characters, no whitespace at either end. -/
def normalForm (l : List Char) : Prop :=
  (∀ c ∈ l, (isWordChar c = true ∨ c = ' ') ∧ c.toLower = c) ∧
  List.Chain' noTwoWS l ∧
  (∀ h ∈ l.head?, pySpace h = false) ∧
  (∀ h ∈ l.getLast?, pySpace h = false)

lemma map_eq_self {l : List Char} {f : Char → Char} (h : ∀ c ∈ l, f c = c) :
    l.map f = l := by
  induction l with
  | nil => rfl
  | cons a t ih =>
    simp only [List.map_cons, h a (by simp),
      ih (fun c hc => h c (List.mem_cons_of_mem _ hc))]

lemma normalForm_normalizeHeaderChars (l : List Char) :
    normalForm (normalizeHeaderChars l) := by
  unfold normalizeHeaderChars
  set z1 := l.map subPunct with hz1
  set z2 := collapseWS z1 with hz2
  set z3 := pyStrip z2 with hz3
  have hz2chars : ∀ c ∈ z2, isWordChar c = true ∨ c = ' ' := by
    intro c hc
    rcases collapseWS_mem c hc with h | ⟨hm, hs⟩
    · right; exact h
    · left
      rw [hz1] at hm
      obtain ⟨a, _, rfl⟩ := List.mem_map.1 hm
      rcases subPunct_prop a with h | h
      · exact h
      · rw [h] at hs; exact absurd hs (by simp)
  have hz3chars : ∀ c ∈ z3, isWordChar c = true ∨ c = ' ' := fun c hc =>
    hz2chars c ((pyStrip_within z2).subset hc)
  refine ⟨?_, ?_, ?_, ?_⟩
  · intro c hc
    obtain ⟨a, ha, rfl⟩ := List.mem_map.1 hc
    rcases hz3chars a ha with h | h
    · exact ⟨Or.inl (isWordChar_toLower h), toLower_idem a⟩
    · subst h; exact ⟨Or.inr (by decide), by decide⟩
  · rw [List.chain'_map]
    have hq := List.Chain'.infix (collapseWS_chain z1) (pyStrip_within z2)
    refine hq.imp ?_
    intro a b hab hk
    exact hab ⟨pySpace_of_toLower hk.1, pySpace_of_toLower hk.2⟩
  · intro h hh
    rw [List.head?_map] at hh
    obtain ⟨a, ha, rfl⟩ := Option.map_eq_some'.1 hh
    have := pyStrip_head z2 a (by simpa using ha)
    cases hp : pySpace a.toLower
    · rfl
    · exact absurd (pySpace_of_toLower hp) (by simp [this])
  · intro h hh
    rw [List.getLast?_map] at hh
    obtain ⟨a, ha, rfl⟩ := Option.map_eq_some'.1 hh
    have := pyStrip_last z2 a (by simpa using ha)
    cases hp : pySpace a.toLower
    · rfl
    · exact absurd (pySpace_of_toLower hp) (by simp [this])

lemma normalizeHeaderChars_eq_self {l : List Char} (h : normalForm l) :
    normalizeHeaderChars l = l := by
  obtain ⟨hchars, hchain, hhead, hlast⟩ := h
  unfold normalizeHeaderChars
  have h1 : l.map subPunct = l := by
    apply map_eq_self
    intro c hc
    unfold subPunct
    rcases (hchars c hc).1 with hw | hw
    · rw [if_pos (by simp [hw])]
    · rw [if_pos (by subst hw; decide)]
  rw [h1]
  rw [collapseWS_eq_self (fun c hc => (hchars c hc).1) hchain]
  rw [pyStrip_eq_self hhead hlast]
  exact map_eq_self (fun c hc => (hchars c hc).2)

theorem normalizeHeader_idem (s : String) :
    normalizeHeader (normalizeHeader s) = normalizeHeader s := by
  unfold normalizeHeader
  rw [show (String.mk (normalizeHeaderChars s.data)).data
      = normalizeHeaderChars s.data from rfl]
  rw [normalizeHeaderChars_eq_self (normalForm_normalizeHeaderChars s.data)]

/-- A spreadsheet cell value as read by the engine (`load_workbook(data_only=True)`):
`None`, a string, or a non-string scalar (numbers are the relevant case). -/
inductive CellVal
  | empty
  | str (s : String)
  | int (n : ℤ)
deriving DecidableEq, Repr

/-- Python `str(v)` on the modelled cell values. -/
def pyStr : CellVal → String
  | .empty => "None"
  | .str s => s
  | .int n => toString n

/-- Python `str.strip()` on a `String`. -/
def pyStripS (s : String) : String :=
  String.mk (pyStrip s.data)

/-- `_normalize_key(k)`: `""` for `None`, else `str(k).strip()`. -/
def normalizeKey : CellVal → String
  | .empty => ""
  | v => pyStripS (pyStr v)

/-- Python `v in (None, "")` on the modelled cell values. -/
def isEmptyVal : CellVal → Bool
  | .empty => true
  | .str s => s == ""
  | .int _ => false

/-- `_safe_eq(a, b)`: `False` when both are empty, else equality of the
`_normalize_key` forms. -/
def safeEq (a b : CellVal) : Bool :=
  if isEmptyVal a && isEmptyVal b then false
  else normalizeKey a == normalizeKey b

/-- A fill decision for one output cell in the comparison grid. -/
inductive Mark
  | noFill
  | matchFill
  | delFill
  | addFill
deriving DecidableEq, Repr

/-- The per-cell classification of `compare_excel_files` (write loop):
skip when both values are empty, fill both yellow on `_safe_eq`, otherwise
red on a non-empty file-1 value and green on a non-empty file-2 value. -/
def classifyCell (v1 v2 : CellVal) : Mark × Mark :=
  if isEmptyVal v1 && isEmptyVal v2 then (.noFill, .noFill)
  else if safeEq v1 v2 then (.matchFill, .matchFill)
  else ((if isEmptyVal v1 then .noFill else .delFill),
        (if isEmptyVal v2 then .noFill else .addFill))

/-- A read-only spreadsheet grid (1-indexed), the engine's view of a sheet. -/
structure Grid where
  maxRow : Nat
  maxCol : Nat
  cell : Nat → Nat → CellVal

/-- Build a concrete grid from a row-major list of rows (1-indexed access,
out-of-range cells are empty). -/
def gridOfRows (rows : List (List CellVal)) : Grid where
  maxRow := rows.length
  maxCol := (rows.map List.length).foldr max 0
  cell r c := (((rows.get? (r - 1)).getD []).get? (c - 1)).getD .empty

/-- Python-dict assignment `d[k] = v` on an insertion-ordered association
list: overwrite in place when the key is present, else append. -/
def dictSet (d : List (String × Nat)) (k : String) (v : Nat) : List (String × Nat) :=
  if d.any (fun p => p.1 == k) then d.map (fun p => if p.1 == k then (k, v) else p)
  else d ++ [(k, v)]

/-- Python-dict lookup `d.get(k)`. -/
def dictGet (d : List (String × Nat)) (k : String) : Option Nat :=
  (d.find? (fun p => p.1 == k)).map (fun p => p.2)

/-- `build_row_dict(sheet, header_row, key_col)`: scan rows below the header
row and assign `row_dict[_normalize_header(str(key))] = r` for each
non-empty key cell. -/
def buildRowDict (g : Grid) (headerRow keyCol : Nat) : List (String × Nat) :=
  (List.range' (headerRow + 1) (g.maxRow - headerRow)).foldl
    (fun d r =>
      let key := g.cell r keyCol
      if isEmptyVal key then d
      else dictSet d (normalizeHeader (pyStr key)) r)
    []

/-- The textual-cell count of a row used by `locate_header_row`: cells whose
value is a non-empty string with non-blank strip. -/
def textualCount (g : Grid) (r : Nat) : Nat :=
  ((List.range' 1 g.maxCol).filter (fun c =>
    match g.cell r c with
    | .str s => s ≠ "" && pyStripS s ≠ ""
    | _ => false)).length

/-- The candidate test of `locate_header_row`: the cell holds a truthy
string whose normalized form equals the target. -/
def isCandidateCell (g : Grid) (target : String) (r c : Nat) : Bool :=
  match g.cell r c with
  | .str s => s ≠ "" && normalizeHeader s == target
  | _ => false

/-- All `(row, col, textual-count)` candidates of `locate_header_row`, in
row-major scan order. -/
def candidatesFor (g : Grid) (target : String) : List (Nat × Nat × Nat) :=
  (List.range' 1 g.maxRow).flatMap (fun r =>
    ((List.range' 1 g.maxCol).filter (fun c => isCandidateCell g target r c)).map
      (fun c => (r, c, textualCount g r)))

/-- The sort key order of `locate_header_row`
(`key=lambda x: (-x[2], x[0], x[1])`): larger textual count first, then
smaller row, then smaller column. -/
def candKeyLE (a b : Nat × Nat × Nat) : Prop :=
  b.2.2 < a.2.2 ∨ (a.2.2 = b.2.2 ∧ (a.1 < b.1 ∨ (a.1 = b.1 ∧ a.2.1 ≤ b.2.1)))

instance : DecidableRel candKeyLE := fun a b => by
  unfold candKeyLE; infer_instance

instance : IsTotal (Nat × Nat × Nat) candKeyLE :=
  ⟨fun a b => by unfold candKeyLE; omega⟩

instance : IsTrans (Nat × Nat × Nat) candKeyLE :=
  ⟨fun a b c hab hbc => by unfold candKeyLE at *; omega⟩

/-- `locate_header_row(sheet, key_header_norm, top_rows_prefer)`: `none`
models the `HeaderNotFound` failure; otherwise the head of the sorted
candidate list — preferring candidates within the top rows — is returned. -/
def locateHeaderRow (g : Grid) (target : String) (topRowsPrefer : Nat) :
    Option (Nat × Nat) :=
  let cands := candidatesFor g target
  if cands.isEmpty then none
  else
    let top := cands.filter (fun t => t.1 ≤ topRowsPrefer)
    if top.isEmpty then
      match List.insertionSort candKeyLE cands with
      | [] => none
      | t :: _ => some (t.1, t.2.1)
    else
      match List.insertionSort candKeyLE top with
      | [] => none
      | t :: _ => some (t.1, t.2.1)

/-- The pool `locate_header_row` selects from: the top-rows candidates when
any exist, otherwise all candidates. -/
def bestPool (g : Grid) (target : String) (topRowsPrefer : Nat) :
    List (Nat × Nat × Nat) :=
  let cands := candidatesFor g target
  let top := cands.filter (fun t => t.1 ≤ topRowsPrefer)
  if top.isEmpty then cands else top

end ExcelDiff

namespace ExcelDiff

/-- C9: normalization is idempotent, `null`/empty input normalizes to the
empty string, and case / punctuation / internal-whitespace variants of a
header collapse to the same normalized text
(`normalize("S. No") = normalize("s no") = normalize("S  NO")`). -/
theorem C9_normalize_idempotent :
    (∀ s : String, normalizeHeader (normalizeHeader s) = normalizeHeader s) ∧
    normalizeHeaderOpt none = "" ∧ normalizeHeader "" = "" ∧
    (normalizeHeader "S. No" = normalizeHeader "s no" ∧
     normalizeHeader "s no" = normalizeHeader "S  NO") :=
  ⟨normalizeHeader_idem, by decide, by decide, by decide, by decide⟩

/-- C1 counterexample: `"ABC"` and `"abc"` have equal Normalizer
(`_normalize_header`) forms, yet the Cell Differ classifies them as
Removed/Added, not as a Match: `_safe_eq` compares `_normalize_key` forms
(`str(v).strip()`), which are case-sensitive. -/
theorem C1_counterexample :
    normalizeHeader "ABC" = normalizeHeader "abc" ∧
    classifyCell (.str "ABC") (.str "abc") = (.delFill, .addFill) :=
  ⟨by decide, by decide⟩

/-- C1 (amended): both sides empty yields Blank (no highlight); otherwise
values whose trimmed stringifications (`str(v).strip()`, the `_normalize_key`
form — case- and punctuation-sensitive) are equal yield Match on both sides;
otherwise each non-empty side is marked Removed (file 1) / Added (file 2).
Whitespace-only differences never count as a diff (`" x"` vs `"x"` is a
Match), but case or punctuation differences do. -/
theorem C1_amended (v1 v2 : CellVal) :
    (isEmptyVal v1 = true ∧ isEmptyVal v2 = true →
      classifyCell v1 v2 = (.noFill, .noFill)) ∧
    (¬(isEmptyVal v1 = true ∧ isEmptyVal v2 = true) →
      (normalizeKey v1 = normalizeKey v2 →
        classifyCell v1 v2 = (.matchFill, .matchFill)) ∧
      (normalizeKey v1 ≠ normalizeKey v2 →
        classifyCell v1 v2 = ((if isEmptyVal v1 then .noFill else .delFill),
                              (if isEmptyVal v2 then .noFill else .addFill)))) ∧
    classifyCell (.str " x") (.str "x") = (.matchFill, .matchFill) := by
  refine ⟨?_, ?_, by decide⟩
  · intro h
    simp [classifyCell, h.1, h.2]
  · intro h
    have hb : (isEmptyVal v1 && isEmptyVal v2) = false := by
      cases h1 : isEmptyVal v1
      · simp
      · cases h2 : isEmptyVal v2
        · simp
        · exact absurd ⟨h1, h2⟩ h
    constructor
    · intro he
      simp [classifyCell, hb, safeEq, he]
    · intro hne
      simp [classifyCell, hb, safeEq, hne]

/-- C1 amended witness: the spec's own example `("x","y")` is classified
Removed on the left and Added on the right. -/
theorem C1_amended_witness :
    classifyCell (.str "x") (.str "y") = (.delFill, .addFill) := by
  have h := (C1_amended (.str "x") (.str "y")).2.1 (by decide)
  simpa using h.2 (by decide)

lemma candKeyLE_refl (a : Nat × Nat × Nat) : candKeyLE a a := by
  unfold candKeyLE; omega

lemma head_insertionSort_min {l : List (Nat × Nat × Nat)} {t : Nat × Nat × Nat}
    {ts : List (Nat × Nat × Nat)} (h : List.insertionSort candKeyLE l = t :: ts) :
    t ∈ l ∧ ∀ x ∈ l, candKeyLE t x := by
  have hperm := List.perm_insertionSort candKeyLE l
  have hsorted := List.sorted_insertionSort candKeyLE l
  rw [h] at hperm hsorted
  refine ⟨hperm.mem_iff.1 (by simp), ?_⟩
  intro x hx
  rcases List.mem_cons.1 (hperm.mem_iff.2 hx) with rfl | hm
  · exact candKeyLE_refl x
  · exact List.rel_of_sorted_cons hsorted x hm

lemma mem_candidatesFor {g : Grid} {target : String} {r c cnt : Nat}
    (h : (r, c, cnt) ∈ candidatesFor g target) :
    cnt = textualCount g r ∧ isCandidateCell g target r c = true := by
  simp only [candidatesFor, List.mem_flatMap, List.mem_map, List.mem_filter] at h
  obtain ⟨r', _, c', ⟨_, hcand⟩, heq⟩ := h
  simp only [Prod.mk.injEq] at heq
  obtain ⟨rfl, rfl, rfl⟩ := heq
  exact ⟨rfl, hcand⟩

/-- C7: the Header Locator returns `HeaderNotFound` (modelled `none`) exactly
when no cell's normalized text matches the target; otherwise it returns a
candidate from the preferred pool (top-rows candidates when any exist, else
all candidates) that maximizes the textual-cell count of its row, with ties
broken by smallest row then smallest column (`candKeyLE`-least). -/
theorem C7_locate_header (g : Grid) (target : String) (k : Nat) :
    (locateHeaderRow g target k = none ↔ candidatesFor g target = []) ∧
    (∀ r c, locateHeaderRow g target k = some (r, c) →
      (r, c, textualCount g r) ∈ bestPool g target k ∧
      ∀ x ∈ bestPool g target k, candKeyLE (r, c, textualCount g r) x) := by
  by_cases hc : (candidatesFor g target).isEmpty
  · constructor
    · simp [locateHeaderRow, hc, List.isEmpty_iff.1 hc]
    · intro r c hl
      rw [show locateHeaderRow g target k = none by simp [locateHeaderRow, hc]] at hl
      exact absurd hl (by simp)
  · have hpool : ∀ t ts, List.insertionSort candKeyLE (bestPool g target k) = t :: ts →
        locateHeaderRow g target k = some (t.1, t.2.1) := by
      intro t ts hs
      by_cases htop : ((candidatesFor g target).filter
          (fun t => t.1 ≤ k)).isEmpty
      · have : bestPool g target k = candidatesFor g target := by
          simp [bestPool, htop]
        rw [this] at hs
        simp [locateHeaderRow, hc, htop, hs]
      · have : bestPool g target k
            = (candidatesFor g target).filter (fun t => t.1 ≤ k) := by
          simp [bestPool, htop]
        rw [this] at hs
        simp [locateHeaderRow, hc, htop, hs]
    have hnonempty : bestPool g target k ≠ [] := by
      unfold bestPool
      by_cases htop : ((candidatesFor g target).filter
          (fun t => t.1 ≤ k)).isEmpty
      · rw [if_pos htop]
        exact fun hnil => hc (by simp [hnil])
      · rw [if_neg htop]
        exact fun hnil => htop (by simp [hnil])
    obtain ⟨t, ts, hs⟩ :
        ∃ t ts, List.insertionSort candKeyLE (bestPool g target k) = t :: ts := by
      cases hss : List.insertionSort candKeyLE (bestPool g target k) with
      | nil =>
        have hperm := List.perm_insertionSort candKeyLE (bestPool g target k)
        rw [hss] at hperm
        exact absurd hperm.symm.eq_nil hnonempty
      | cons t ts => exact ⟨t, ts, rfl⟩
    have hmin := head_insertionSort_min hs
    have hloc := hpool t ts hs
    constructor
    · rw [hloc]
      constructor
      · intro h; exact absurd h (by simp)
      · intro h
        exact absurd (List.isEmpty_iff.2 h) hc
    · intro r c hl
      rw [hloc] at hl
      simp only [Option.some_inj, Prod.mk.injEq] at hl
      obtain ⟨rfl, rfl⟩ := hl
      have htmem : t ∈ candidatesFor g target := by
        have := hmin.1
        unfold bestPool at this
        by_cases htop : ((candidatesFor g target).filter
            (fun t => t.1 ≤ k)).isEmpty
        · simpa [htop] using this
        · rw [if_neg (by simpa using htop)] at this
          exact (List.mem_filter.1 this).1
      have hcnt : t.2.2 = textualCount g t.1 := by
        have := @mem_candidatesFor g target t.1 t.2.1 t.2.2 (by simpa using htmem)
        exact this.1
      rw [show (t.1, t.2.1, textualCount g t.1) = t by rw [← hcnt]]
      exact hmin

/-- Grid used by the C7 witness: the target header `"id"` appears at row 1
(a header-like row with two textual cells) and again as data at row 3 in a
row with fewer textual cells. -/
def g7 : Grid := gridOfRows
  [[.str "id", .str "name"], [.str "1", .str "a"], [.str "id", .empty]]

/-- C7 witness: on `g7` the locator picks row 1 (top pool, highest textual
count), and the located candidate is in the preferred pool. -/
theorem C7_witness :
    locateHeaderRow g7 "id" 20 = some (1, 1) ∧
    (1, 1, textualCount g7 1) ∈ bestPool g7 "id" 20 := by
  refine ⟨by decide, ?_⟩
  exact ((C7_locate_header g7 "id" 20).2 1 1 (by decide)).1

/-- C10: only string-valued cells are header candidates; a grid whose key
header is stored as the number `1` has no candidate for target `"1"` even
though its stringified, normalized form equals the target, so location fails
with `HeaderNotFound` (`none`); and the textual-cell count ignores
non-string cells (the numeric cell in the example row does not count). -/
theorem C10_string_candidates :
    (∀ (g : Grid) (target : String) (r c cnt : Nat),
        (r, c, cnt) ∈ candidatesFor g target → ∃ s, g.cell r c = CellVal.str s) ∧
    (normalizeHeader (pyStr ((gridOfRows [[.int 1], [.str "x"]]).cell 1 1)) = "1" ∧
      locateHeaderRow (gridOfRows [[.int 1], [.str "x"]]) "1" 20 = none) ∧
    textualCount (gridOfRows [[.str "a", .int 5, .str "b"]]) 1 = 2 := by
  refine ⟨?_, ⟨by decide, by decide⟩, by decide⟩
  intro g target r c cnt h
  have h2 := (mem_candidatesFor h).2
  unfold isCandidateCell at h2
  cases hcell : g.cell r c with
  | empty => rw [hcell] at h2; exact absurd h2 (by simp)
  | str s => exact ⟨s, rfl⟩
  | int n => rw [hcell] at h2; exact absurd h2 (by simp)

/-- C10 witness: the first component applied to a concrete one-cell grid. -/
theorem C10_witness : ∃ s, (gridOfRows [[CellVal.str "h"]]).cell 1 1 = CellVal.str s :=
  C10_string_candidates.1 (gridOfRows [[.str "h"]]) "h" 1 1 1 (by decide)

/-- Grid used for the C2 failing input: header at row 1, data rows 2 and 3
share the normalized key `"a"`. -/
def gC2 : Grid := gridOfRows [[.str "key"], [.str "a"], [.str "a"]]

/-- C2: evaluation at the failing input. Rows 2 and 3 below the header both
hold non-empty key cells with the same normalized key `"a"`, yet the
RowKeyIndex maps `"a"` to row 3 — the LAST occurrence — because
`build_row_dict` overwrites on reassignment, contradicting the claim (and
the function's own docstring) that the first occurrence wins. -/
theorem C2_last_occurrence_wins :
    normalizeHeader (pyStr (gC2.cell 2 1)) = normalizeHeader (pyStr (gC2.cell 3 1)) ∧
    isEmptyVal (gC2.cell 2 1) = false ∧ isEmptyVal (gC2.cell 3 1) = false ∧
    dictGet (buildRowDict gC2 1 1) "a" = some 3 :=
  ⟨by decide, by decide, by decide, by decide⟩

end ExcelDiff

namespace ExcelDiff

/-- Collection loop of `_sample_column_values`: append the `_normalize_key`
form of each non-empty cell, stopping once `max_samples` values are held. -/
def sampleLoop (g : Grid) (col maxSamples : Nat) : List Nat → List String → List String
  | [], acc => acc
  | r :: rs, acc =>
    let v := g.cell r col
    if isEmptyVal v then sampleLoop g col maxSamples rs acc
    else
      let acc' := acc ++ [normalizeKey v]
      if maxSamples ≤ acc'.length then acc'
      else sampleLoop g col maxSamples rs acc'

/-- `_sample_column_values(sheet, header_row, col, max_samples)`: scan
`range(header_row+1, min(max_row+1, header_row+1+max_samples*5))`. -/
def sampleColumnValues (g : Grid) (headerRow col maxSamples : Nat) : List String :=
  sampleLoop g col maxSamples
    (List.range' (headerRow + 1)
      (min (g.maxRow + 1) (headerRow + 1 + maxSamples * 5) - (headerRow + 1)))
    []

/-- `_jaccard(a, b)` over Python sets, on `ℚ`: `1` when both sets are empty,
`0` when exactly one is, else `|A∩B|/|A∪B|`. -/
def jaccard (a b : List String) : ℚ :=
  let sa := a.toFinset
  let sb := b.toFinset
  if sa = ∅ ∧ sb = ∅ then 1
  else if sa = ∅ ∨ sb = ∅ then 0
  else ((sa ∩ sb).card : ℚ) / ((sa ∪ sb).card : ℚ)

/-- Python `str.lower()` (ASCII fragment). -/
def lowerS (s : String) : String :=
  String.mk (s.data.map Char.toLower)

/-- `_name_ratio(a, b)`: `0` for an empty side, else the similarity ratio of
the lower-cased strings. The ratio itself is `difflib.SequenceMatcher.ratio`,
an external library collaborator, taken here as a parameter. -/
def nameRatioW (ratio : String → String → ℚ) (a b : String) : ℚ :=
  if a = "" ∨ b = "" then 0 else ratio (lowerS a) (lowerS b)

/-- A header map entry: normalized header text paired with
`(row, col, displayText)`. -/
abbrev HeaderMap := List (String × Nat × Nat × String)

/-- The all-pairs score list of `match_columns_by_data`: for every header
pair, `weight_name * name_ratio + weight_data * jaccard-of-samples`. -/
def scoresList (ratio : String → String → ℚ) (headers1 headers2 : HeaderMap)
    (g1 g2 : Grid) (hr1 hr2 : Nat) (wn wd : ℚ) (sz : Nat) :
    List (ℚ × String × String) :=
  headers1.flatMap (fun e1 =>
    headers2.map (fun e2 =>
      (wn * nameRatioW ratio e1.2.2.2 e2.2.2.2 +
        wd * jaccard (sampleColumnValues g1 hr1 e1.2.2.1 sz)
          (sampleColumnValues g2 hr2 e2.2.2.1 sz),
       e1.1, e2.1)))

/-- Descending-score order used by `scores.sort(reverse=True, key=...)`. -/
def scoreGE (a b : ℚ × String × String) : Prop := b.1 ≤ a.1

instance : DecidableRel scoreGE := fun a b => by
  unfold scoreGE; infer_instance

/-- The greedy acceptance loop of `match_columns_by_data`: walk the sorted
score list, stop at the first score below `min_score`, skip pairs whose
either side is already matched, accept the rest. -/
def greedyAccept (minScore : ℚ) :
    List (ℚ × String × String) → List String → List String →
    List (String × String) → List (String × String)
  | [], _, _, acc => acc
  | (s, h1, h2) :: rest, m1, m2, acc =>
    if s < minScore then acc
    else if h1 ∈ m1 ∨ h2 ∈ m2 then greedyAccept minScore rest m1 m2 acc
    else greedyAccept minScore rest (h1 :: m1) (h2 :: m2) (acc ++ [(h1, h2)])

/-- `match_columns_by_data(...)`: greedy matching over the
descending-sorted score list (the resulting mapping as an ordered list
of pairs). -/
def matchColumnsByData (ratio : String → String → ℚ) (headers1 headers2 : HeaderMap)
    (g1 g2 : Grid) (hr1 hr2 : Nat) (wn wd minScore : ℚ) (sz : Nat) :
    List (String × String) :=
  greedyAccept minScore
    (List.insertionSort scoreGE (scoresList ratio headers1 headers2 g1 g2 hr1 hr2 wn wd sz))
    [] [] []

lemma sampleLoop_spec (g : Grid) (col n : Nat) :
    ∀ (rs : List Nat) (acc : List String), acc.length < n →
      (sampleLoop g col n rs acc).length ≤ n ∧
      ∀ v ∈ sampleLoop g col n rs acc, v ∈ acc ∨ ∃ r ∈ rs,
        isEmptyVal (g.cell r col) = false ∧ v = normalizeKey (g.cell r col) := by
  intro rs
  induction rs with
  | nil =>
    intro acc hlen
    exact ⟨by simpa [sampleLoop] using Nat.le_of_lt hlen,
      fun v hv => Or.inl (by simpa [sampleLoop] using hv)⟩
  | cons r rs ih =>
    intro acc hlen
    simp only [sampleLoop]
    by_cases he : isEmptyVal (g.cell r col) = true
    · rw [if_pos he]
      obtain ⟨h1, h2⟩ := ih acc hlen
      refine ⟨h1, fun v hv => ?_⟩
      rcases h2 v hv with h | ⟨r', hr', hprop⟩
      · exact Or.inl h
      · exact Or.inr ⟨r', List.mem_cons_of_mem _ hr', hprop⟩
    · rw [if_neg he]
      by_cases hstop : n ≤ (acc ++ [normalizeKey (g.cell r col)]).length
      · rw [if_pos hstop]
        constructor
        · simp only [List.length_append, List.length_cons, List.length_nil]
          omega
        · intro v hv
          rcases List.mem_append.1 hv with h | h
          · exact Or.inl h
          · exact Or.inr ⟨r, List.mem_cons_self r rs,
              by simpa using he, by simpa using h⟩
      · rw [if_neg hstop]
        obtain ⟨h1, h2⟩ := ih (acc ++ [normalizeKey (g.cell r col)]) (by omega)
        refine ⟨h1, fun v hv => ?_⟩
        rcases h2 v hv with h | ⟨r', hr', hprop⟩
        · rcases List.mem_append.1 h with h' | h'
          · exact Or.inl h'
          · exact Or.inr ⟨r, List.mem_cons_self r rs,
              by simpa using he, by simpa using h'⟩
        · exact Or.inr ⟨r', List.mem_cons_of_mem _ hr', hprop⟩

end ExcelDiff

namespace ExcelDiff

/-- C3 counterexample: the sampled cell text `"A.B"` enters the sample
verbatim (only trimmed by `_normalize_key`), although the Normalizer used
for header names and key values maps it to `"a b"` — so samples are NOT
normalized with that Normalizer before the Jaccard score. -/
theorem C3_counterexample :
    sampleColumnValues (gridOfRows [[.str "h"], [.str "A.B"]]) 1 1 40 = ["A.B"] ∧
    normalizeHeader "A.B" ≠ "A.B" :=
  ⟨by decide, by decide⟩

/-- C3 (amended): `sample(h)` draws up to `sampleSize` non-empty values,
scanning at most `sampleSize*5` rows below the header, each value being the
`_normalize_key` form (`str(v).strip()`) of the cell — trimmed but not
punctuation-stripped, whitespace-collapsed or case-folded. -/
theorem C3_amended (g : Grid) (hr col n : Nat) (hn : 1 ≤ n) :
    (sampleColumnValues g hr col n).length ≤ n ∧
    ∀ v ∈ sampleColumnValues g hr col n, ∃ r, hr + 1 ≤ r ∧ r ≤ g.maxRow ∧
      r < hr + 1 + n * 5 ∧ isEmptyVal (g.cell r col) = false ∧
      v = normalizeKey (g.cell r col) := by
  have h := sampleLoop_spec g col n
    (List.range' (hr + 1) (min (g.maxRow + 1) (hr + 1 + n * 5) - (hr + 1))) []
    (by simp only [List.length_nil]; omega)
  unfold sampleColumnValues
  refine ⟨h.1, fun v hv => ?_⟩
  rcases h.2 v hv with h' | ⟨r, hrmem, hprop⟩
  · exact absurd h' (by simp)
  · rw [List.mem_range'_1] at hrmem
    exact ⟨r, hrmem.1, by omega, by omega, hprop.1, hprop.2⟩

/-- C3 amended witness: at the counterexample grid. -/
theorem C3_amended_witness :
    (sampleColumnValues (gridOfRows [[.str "h"], [.str "A.B"]]) 1 1 40).length ≤ 40 :=
  (C3_amended (gridOfRows [[.str "h"], [.str "A.B"]]) 1 1 40 (by decide)).1

lemma greedyAccept_spec (minS : ℚ) :
    ∀ (l : List (ℚ × String × String)) (m1 m2 : List String)
      (acc : List (String × String)),
      (acc.map Prod.fst).Nodup → (acc.map Prod.snd).Nodup →
      (∀ p ∈ acc, p.1 ∈ m1) → (∀ p ∈ acc, p.2 ∈ m2) →
      ((greedyAccept minS l m1 m2 acc).map Prod.fst).Nodup ∧
      ((greedyAccept minS l m1 m2 acc).map Prod.snd).Nodup ∧
      ∀ p ∈ greedyAccept minS l m1 m2 acc,
        p ∈ acc ∨ ∃ s, (s, p.1, p.2) ∈ l ∧ minS ≤ s := by
  intro l
  induction l with
  | nil =>
    intro m1 m2 acc hn1 hn2 _ _
    exact ⟨hn1, hn2, fun p hp => Or.inl (by simpa [greedyAccept] using hp)⟩
  | cons e rest ih =>
    obtain ⟨s, h1e, h2e⟩ := e
    intro m1 m2 acc hn1 hn2 hm1 hm2
    simp only [greedyAccept]
    by_cases hs : s < minS
    · rw [if_pos hs]
      exact ⟨hn1, hn2, fun p hp => Or.inl hp⟩
    · rw [if_neg hs]
      by_cases hmem : h1e ∈ m1 ∨ h2e ∈ m2
      · rw [if_pos hmem]
        obtain ⟨a1, a2, a3⟩ := ih m1 m2 acc hn1 hn2 hm1 hm2
        refine ⟨a1, a2, fun p hp => ?_⟩
        rcases a3 p hp with h | ⟨s', hs', hmin⟩
        · exact Or.inl h
        · exact Or.inr ⟨s', List.mem_cons_of_mem _ hs', hmin⟩
      · rw [if_neg hmem]
        push_neg at hmem
        have hfst : h1e ∉ acc.map Prod.fst := by
          intro hx
          obtain ⟨p, hp, hpe⟩ := List.mem_map.1 hx
          exact hmem.1 (hpe ▸ hm1 p hp)
        have hsnd : h2e ∉ acc.map Prod.snd := by
          intro hx
          obtain ⟨p, hp, hpe⟩ := List.mem_map.1 hx
          exact hmem.2 (hpe ▸ hm2 p hp)
        have hnew1 : ((acc ++ [(h1e, h2e)]).map Prod.fst).Nodup := by
          rw [List.map_append, List.nodup_append]
          exact ⟨hn1, by simp, by simpa [List.disjoint_singleton] using hfst⟩
        have hnew2 : ((acc ++ [(h1e, h2e)]).map Prod.snd).Nodup := by
          rw [List.map_append, List.nodup_append]
          exact ⟨hn2, by simp, by simpa [List.disjoint_singleton] using hsnd⟩
        have hsub1 : ∀ p ∈ acc ++ [(h1e, h2e)], p.1 ∈ h1e :: m1 := by
          intro p hp
          rcases List.mem_append.1 hp with h | h
          · exact List.mem_cons_of_mem _ (hm1 p h)
          · rw [show p = (h1e, h2e) by simpa using h]
            exact List.mem_cons_self _ _
        have hsub2 : ∀ p ∈ acc ++ [(h1e, h2e)], p.2 ∈ h2e :: m2 := by
          intro p hp
          rcases List.mem_append.1 hp with h | h
          · exact List.mem_cons_of_mem _ (hm2 p h)
          · rw [show p = (h1e, h2e) by simpa using h]
            exact List.mem_cons_self _ _
        obtain ⟨a1, a2, a3⟩ := ih (h1e :: m1) (h2e :: m2) (acc ++ [(h1e, h2e)])
          hnew1 hnew2 hsub1 hsub2
        refine ⟨a1, a2, fun p hp => ?_⟩
        rcases a3 p hp with h | ⟨s', hs', hmin⟩
        · rcases List.mem_append.1 h with h' | h'
          · exact Or.inl h'
          · have hpe : p = (h1e, h2e) := by simpa using h'
            subst hpe
            exact Or.inr ⟨s, List.mem_cons_self _ _, le_of_not_lt hs⟩
        · exact Or.inr ⟨s', List.mem_cons_of_mem _ hs', hmin⟩

lemma mem_scoresList {ratio : String → String → ℚ} {headers1 headers2 : HeaderMap}
    {g1 g2 : Grid} {hr1 hr2 : Nat} {wn wd : ℚ} {sz : Nat} {s : ℚ} {h1 h2 : String}
    (h : (s, h1, h2) ∈ scoresList ratio headers1 headers2 g1 g2 hr1 hr2 wn wd sz) :
    ∃ rc1 rc2, (h1, rc1) ∈ headers1 ∧ (h2, rc2) ∈ headers2 ∧
      s = wn * nameRatioW ratio rc1.2.2 rc2.2.2 +
        wd * jaccard (sampleColumnValues g1 hr1 rc1.2.1 sz)
          (sampleColumnValues g2 hr2 rc2.2.1 sz) := by
  simp only [scoresList, List.mem_flatMap, List.mem_map] at h
  obtain ⟨e1, he1, e2, he2, heq⟩ := h
  simp only [Prod.mk.injEq] at heq
  obtain ⟨hse, rfl, rfl⟩ := heq
  exact ⟨e1.2, e2.2, by simpa using he1, by simpa using he2, hse.symm⟩

/-- C6: the Column Matcher's result is a one-to-one partial mapping — no
file-1 header occurs twice as a key, no file-2 header occurs twice as a
value — and every accepted pair's combined score
(`weight_name*nameScore + weight_data*dataScore`) is at least `min_score`. -/
theorem C6_column_match (ratio : String → String → ℚ) (headers1 headers2 : HeaderMap)
    (g1 g2 : Grid) (hr1 hr2 : Nat) (wn wd minScore : ℚ) (sz : Nat) :
    ((matchColumnsByData ratio headers1 headers2 g1 g2 hr1 hr2 wn wd minScore sz).map
        Prod.fst).Nodup ∧
    ((matchColumnsByData ratio headers1 headers2 g1 g2 hr1 hr2 wn wd minScore sz).map
        Prod.snd).Nodup ∧
    ∀ p ∈ matchColumnsByData ratio headers1 headers2 g1 g2 hr1 hr2 wn wd minScore sz,
      ∃ rc1 rc2, (p.1, rc1) ∈ headers1 ∧ (p.2, rc2) ∈ headers2 ∧
        minScore ≤ wn * nameRatioW ratio rc1.2.2 rc2.2.2 +
          wd * jaccard (sampleColumnValues g1 hr1 rc1.2.1 sz)
            (sampleColumnValues g2 hr2 rc2.2.1 sz) := by
  obtain ⟨a1, a2, a3⟩ := greedyAccept_spec minScore
    (List.insertionSort scoreGE (scoresList ratio headers1 headers2 g1 g2 hr1 hr2 wn wd sz))
    [] [] [] (by simp) (by simp) (by simp) (by simp)
  refine ⟨a1, a2, fun p hp => ?_⟩
  rcases a3 p hp with h | ⟨s, hs, hmin⟩
  · exact absurd h (by simp)
  · have hmem : (s, p.1, p.2) ∈ scoresList ratio headers1 headers2 g1 g2 hr1 hr2 wn wd sz :=
      (List.perm_insertionSort scoreGE _).subset hs
    obtain ⟨rc1, rc2, hm1, hm2, hform⟩ := mem_scoresList hmem
    exact ⟨rc1, rc2, hm1, hm2, hform ▸ hmin⟩

/-- Grid with no cells, used by the C6 witness. -/
def gEmpty : Grid := ⟨0, 0, fun _ _ => .empty⟩

/-- C6 witness: a concrete one-pair instance where the single accepted pair
meets the score bound. -/
theorem C6_witness :
    ∃ rc1 rc2, (("a" : String), rc1) ∈ ([("a", (1, 1, "A"))] : HeaderMap) ∧
      (("b" : String), rc2) ∈ ([("b", (1, 1, "B"))] : HeaderMap) ∧
      (1/2 : ℚ) ≤ 0 * nameRatioW (fun _ _ => 0) rc1.2.2 rc2.2.2 +
        1 * jaccard (sampleColumnValues gEmpty 1 rc1.2.1 0)
          (sampleColumnValues gEmpty 1 rc2.2.1 0) :=
  (C6_column_match (fun _ _ => 0) [("a", (1, 1, "A"))] [("b", (1, 1, "B"))]
    gEmpty gEmpty 1 1 0 1 (1/2) 0).2.2 ("a", "b") (by
      simp [matchColumnsByData, scoresList, greedyAccept, List.insertionSort,
        List.orderedInsert, nameRatioW, jaccard, sampleColumnValues, sampleLoop]
      norm_num)

end ExcelDiff

namespace ExcelDiff

/-- Base-10 value of a digit list. -/
def digitsToNat (l : List Char) : Nat :=
  l.foldl (fun a c => a * 10 + (c.toNat - 48)) 0

/-- Parse an optional leading sign; `true` means negative. -/
def parseSign : List Char → Bool × List Char
  | '-' :: t => (true, t)
  | '+' :: t => (false, t)
  | l => (false, l)

/-- Parse a non-empty all-digit list. -/
def parseDigits (l : List Char) : Option Nat :=
  if l ≠ [] ∧ l.all Char.isDigit then some (digitsToNat l) else none

/-- Parse the mantissa `digits[.digits]` of a decimal literal (at least one
digit overall). -/
def parseMantissa (l : List Char) : Option ℚ :=
  match l.span Char.isDigit with
  | (ip, []) => if ip = [] then none else some (digitsToNat ip : ℚ)
  | (ip, '.' :: fp) =>
    if (ip ≠ [] ∨ fp ≠ []) ∧ fp.all Char.isDigit then
      some ((digitsToNat ip : ℚ) + (digitsToNat fp : ℚ) / (10 : ℚ) ^ fp.length)
    else none
  | _ => none

/-- Split at the first `e`/`E` exponent marker. -/
def splitExp (l : List Char) : List Char × Option (List Char) :=
  match l.span (fun c => !(c == 'e' || c == 'E')) with
  | (m, []) => (m, none)
  | (m, _ :: t) => (m, some t)

/-- A model of Python's `float(x)` on finite decimal literals
`[+-]?digits[.digits][(e|E)[+-]?digits]` — the forms `_sort_keys` relies
on. Special float spellings (`inf`, `nan`, underscore digit grouping) are
outside this model. `none` models a `ValueError`. -/
def pyFloat (s : String) : Option ℚ :=
  let sl := parseSign s.data
  let me := splitExp sl.2
  match parseMantissa me.1, me.2 with
  | some q, none => some (if sl.1 then -q else q)
  | some q, some el =>
    let esl := parseSign el
    match parseDigits esl.2 with
    | some e =>
      some ((if sl.1 then -q else q) *
        (10 : ℚ) ^ (if esl.1 then -(e : ℤ) else (e : ℤ)))
    | none => none
  | _, _ => none

/-- The order induced by `_sort_keys`' key function
`x ↦ (0, float(x))` on parseable keys and `x ↦ (1, x)` otherwise: numeric
keys first (by numeric value), then non-numeric keys (lexically). -/
def sortKeyLEb (x y : String) : Bool :=
  match pyFloat x, pyFloat y with
  | some a, some b => a ≤ b
  | some _, none => true
  | none, some _ => false
  | none, none => x ≤ y

/-- Propositional form of `sortKeyLEb`. -/
def sortKeyLE (x y : String) : Prop := sortKeyLEb x y = true

instance : DecidableRel sortKeyLE := fun x y => by
  unfold sortKeyLE; infer_instance

instance : IsTotal String sortKeyLE :=
  ⟨fun x y => by
    unfold sortKeyLE sortKeyLEb
    cases hx : pyFloat x <;> cases hy : pyFloat y <;> simp
    · exact le_total x.data y.data
    · exact le_total _ _⟩

instance : IsTrans String sortKeyLE :=
  ⟨fun x y z hxy hyz => by
    unfold sortKeyLE sortKeyLEb at hxy hyz ⊢
    cases hx : pyFloat x <;> cases hy : pyFloat y <;> cases hz : pyFloat z <;>
      rw [hx, hy] at hxy <;> rw [hy, hz] at hyz <;> simp_all
    · exact le_trans hxy hyz
    · exact le_trans hxy hyz⟩

/-- `_sort_keys(keys)`. -/
def sortKeys (keys : List String) : List String :=
  List.insertionSort sortKeyLE keys

/-- The by-key branch of `compare_excel_files`: the union of the two row
dictionaries' key sets (modelled as `dedup` of their concatenation),
sorted by `_sort_keys`, each key paired with its row on each side
(`row_dict.get(key)`). -/
def alignedRowsByKey (d1 d2 : List (String × Nat)) :
    List (String × Option Nat × Option Nat) :=
  (sortKeys ((d1.map Prod.fst ++ d2.map Prod.fst).dedup)).map
    (fun k => (k, dictGet d1 k, dictGet d2 k))

lemma dictGet_eq_none_iff {d : List (String × Nat)} {k : String} :
    dictGet d k = none ↔ k ∉ d.map Prod.fst := by
  unfold dictGet
  rw [Option.map_eq_none', List.find?_eq_none]
  constructor
  · intro h hk
    obtain ⟨p, hp, hpk⟩ := List.mem_map.1 hk
    exact h p hp (by simp [hpk])
  · intro h p hp hbeq
    exact h (List.mem_map.2 ⟨p, hp, beq_iff_eq.1 hbeq⟩)

/-- C8: in by-key mode the aligned row set is exactly the union of the two
files' normalized key sets; it is sorted by the `_sort_keys` order (numeric
keys first, by value; non-numeric keys after, lexically); each aligned row
carries `row1`/`row2` looked up from the respective index, a side being
`none` exactly when that file lacks the key; and the spec's example
`{1,2,3}` vs `{2,3,4}` aligns to `{1,2,3,4}` with key 1 absent on the right
and key 4 absent on the left. -/
theorem C8_by_key_alignment (d1 d2 : List (String × Nat)) :
    (∀ k, k ∈ (alignedRowsByKey d1 d2).map (fun t => t.1) ↔
      (k ∈ d1.map Prod.fst ∨ k ∈ d2.map Prod.fst)) ∧
    ((alignedRowsByKey d1 d2).map (fun t => t.1)).Nodup ∧
    List.Sorted sortKeyLE ((alignedRowsByKey d1 d2).map (fun t => t.1)) ∧
    (∀ t ∈ alignedRowsByKey d1 d2,
      t.2.1 = dictGet d1 t.1 ∧ t.2.2 = dictGet d2 t.1 ∧
      (t.2.1 = none ↔ t.1 ∉ d1.map Prod.fst) ∧
      (t.2.2 = none ↔ t.1 ∉ d2.map Prod.fst)) ∧
    alignedRowsByKey [("1", 2), ("2", 3), ("3", 4)] [("2", 2), ("3", 3), ("4", 4)] =
      [("1", some 2, none), ("2", some 3, some 2), ("3", some 4, some 3),
       ("4", none, some 4)] := by
  have hmap : (alignedRowsByKey d1 d2).map (fun t => t.1) =
      sortKeys ((d1.map Prod.fst ++ d2.map Prod.fst).dedup) := by
    unfold alignedRowsByKey
    rw [List.map_map]
    exact List.map_id _
  refine ⟨?_, ?_, ?_, ?_, by decide⟩
  · intro k
    rw [hmap]
    unfold sortKeys
    rw [(List.perm_insertionSort sortKeyLE _).mem_iff, List.mem_dedup,
      List.mem_append]
  · rw [hmap]
    unfold sortKeys
    exact ((List.perm_insertionSort sortKeyLE _).nodup_iff).2 (List.nodup_dedup _)
  · rw [hmap]
    exact List.sorted_insertionSort sortKeyLE _
  · intro t ht
    unfold alignedRowsByKey at ht
    obtain ⟨k, _, rfl⟩ := List.mem_map.1 ht
    exact ⟨rfl, rfl, dictGet_eq_none_iff, dictGet_eq_none_iff⟩

/-- C8 witness: the sortedness component at the spec's example key sets. -/
theorem C8_witness :
    List.Sorted sortKeyLE
      ((alignedRowsByKey [("1", 2), ("2", 3), ("3", 4)]
        [("2", 2), ("3", 3), ("4", 4)]).map (fun t => t.1)) :=
  (C8_by_key_alignment [("1", 2), ("2", 3), ("3", 4)]
    [("2", 2), ("3", 3), ("4", 4)]).2.2.1

end ExcelDiff

namespace DiffProgress

/-- The `_progress` wrapper shared by both engines: call the callback and
swallow any exception it raises (`except Exception: pass`). -/
def progressCall (cb : Nat → Except String Unit) (p : Nat) : Except String Unit :=
  match cb p with
  | .ok _ => .ok ()
  | .error _ => .ok ()

/-- Run the engine's milestone sequence through `_progress`, propagating any
error `_progress` lets escape. -/
def runMilestones (cb : Nat → Except String Unit) : List Nat → Except String Unit
  | [] => .ok ()
  | p :: ps =>
    match progressCall cb p with
    | .ok _ => runMilestones cb ps
    | .error e => .error e

/-- The percentages reported by one `compare_excel_files` run over `nrows`
aligned rows: fixed milestones 1, 5, 15, 30, then `30 + 60*i/total` for each
loop index `i` divisible by 20 (`total = max 1 nrows`), then 95 and 100.
Python's float ratio-and-truncate `int(60 * (i / total))` is modelled as
exact natural division. -/
def excelProgressList (nrows : Nat) : List Nat :=
  [1, 5, 15, 30] ++
  ((((List.range nrows).filter (fun i => i % 20 == 0)).map
    (fun i => 30 + 60 * i / max 1 nrows)) ++ [95, 100])

/-- The percentages reported by `save_side_by_side_pdf` over `n` common
pages: per page `i`, `30 + 20*i/n` before the visual pass and `50 + 20*i/n`
before the text pass (`n` replaced by `max 1 n` as in the source). -/
def pdfProgressList (n : Nat) : List Nat :=
  (List.range n).flatMap
    (fun i => [30 + 20 * i / max 1 n, 50 + 20 * i / max 1 n])

end DiffProgress

namespace DiffProgress

/-- C4 counterexample: a run whose callback throws at every milestone
(including the first, 1) still completes with `ok` — `_progress` swallows
the exception instead of propagating an abort. -/
theorem C4_counterexample :
    runMilestones (fun _ => Except.error "abort") (excelProgressList 1)
      = Except.ok () ∧
    (fun _ => (Except.error "abort" : Except String Unit)) 1
      = Except.error "abort" :=
  ⟨rfl, rfl⟩

/-- C4 (amended): a throwing progress callback never aborts the engine —
every exception is caught and suppressed inside `_progress`, and the
milestone sequence always runs to completion. -/
theorem C4_amended (cb : Nat → Except String Unit) (ps : List Nat) :
    runMilestones cb ps = Except.ok () := by
  induction ps with
  | nil => rfl
  | cons p ps ih =>
    simp only [runMilestones, progressCall]
    cases cb p <;> simpa using ih

/-- C5 counterexample: the document engine's per-page milestones interleave
the 30-based and 50-based ranges, so with two pages the reported sequence is
`30, 50, 40, 60` — the third report (40) is smaller than its predecessor
(50): progress is not monotone. -/
theorem C5_counterexample :
    pdfProgressList 2 = [30, 50, 40, 60] ∧
    ¬ List.Sorted (· ≤ ·) (pdfProgressList 2) :=
  ⟨by decide, by decide⟩

lemma excel_mid_le {nrows i : Nat} (hi : i < nrows) :
    30 + 60 * i / max 1 nrows ≤ 89 := by
  have h1 : 60 * i < max 1 nrows * 60 := by omega
  have h2 : 60 * i / max 1 nrows < 60 := Nat.div_lt_of_lt_mul h1
  omega

/-- C5 (amended): the tabular engine's progress sequence is monotonically
nondecreasing with every value in 0–100 for every row count; the document
engine's values also lie in 0–100 (but its sequence is not monotone, per the
counterexample). -/
theorem C5_amended (n m : Nat) :
    List.Sorted (· ≤ ·) (excelProgressList n) ∧
    (∀ v ∈ excelProgressList n, v ≤ 100) ∧
    (∀ v ∈ pdfProgressList m, v ≤ 100) := by
  have hmid : ∀ v ∈ ((List.range n).filter (fun i => i % 20 == 0)).map
      (fun i => 30 + 60 * i / max 1 n), 30 ≤ v ∧ v ≤ 89 := by
    intro v hv
    obtain ⟨i, hi, rfl⟩ := List.mem_map.1 hv
    have : i < n := List.mem_range.1 (List.mem_filter.1 hi).1
    exact ⟨Nat.le_add_right 30 _, excel_mid_le this⟩
  refine ⟨?_, ?_, ?_⟩
  · unfold excelProgressList
    refine List.pairwise_append.2 ⟨by decide, ?_, ?_⟩
    · refine List.pairwise_append.2 ⟨?_, by decide, ?_⟩
      · refine List.Pairwise.map _ ?_
          (((List.pairwise_lt_range n).filter (fun i => i % 20 == 0)))
        intro a b hab
        have hm : 60 * a ≤ 60 * b := by omega
        have := Nat.div_le_div_right (c := max 1 n) hm
        omega
      · intro a ha b hb
        have := (hmid a ha).2
        have hb' : b = 95 ∨ b = 100 := by simpa using hb
        omega
    · intro a ha b hb
      have ha' : a ≤ 30 := by
        rcases (by simpa using ha : a = 1 ∨ a = 5 ∨ a = 15 ∨ a = 30) with
          rfl | rfl | rfl | rfl <;> omega
      rcases List.mem_append.1 hb with hb' | hb'
      · have := (hmid b hb').1
        omega
      · have : b = 95 ∨ b = 100 := by simpa using hb'
        omega
  · intro v hv
    unfold excelProgressList at hv
    rcases List.mem_append.1 hv with h | h
    · rcases (by simpa using h : v = 1 ∨ v = 5 ∨ v = 15 ∨ v = 30) with
        rfl | rfl | rfl | rfl <;> omega
    · rcases List.mem_append.1 h with h' | h'
      · have := (hmid v h').2
        omega
      · rcases (by simpa using h' : v = 95 ∨ v = 100) with rfl | rfl <;> omega
  · intro v hv
    unfold pdfProgressList at hv
    obtain ⟨i, hi, hv'⟩ := List.mem_flatMap.1 hv
    have hin : i < m := List.mem_range.1 hi
    have h1 : 20 * i < max 1 m * 20 := by omega
    have h2 : 20 * i / max 1 m < 20 := Nat.div_lt_of_lt_mul h1
    rcases (by simpa using hv' :
      v = 30 + 20 * i / max 1 m ∨ v = 50 + 20 * i / max 1 m) with rfl | rfl <;> omega

/-- C5 amended witness: at 25 rows (so the loop reports twice) and 2 pages. -/
theorem C5_amended_witness :
    List.Sorted (· ≤ ·) (excelProgressList 25) ∧ (50 : Nat) ≤ 100 :=
  ⟨(C5_amended 25 2).1, (C5_amended 25 2).2.2 50 (by decide)⟩

end DiffProgress
